import Mathlib

/-!
Verification of the capability-interface hierarchy of `collections-rs`
(`src/generic_containers.rs`, `src/interfaces.rs`).

The crate is a pure interface layer: every trait only declares method
signatures, except for the two default `contains` bodies.  We embed each
trait as a Lean structure whose fields mirror the Rust method signatures
(`&self` / `&mut self` become explicit state passing over a state type σ;
`Option<T>` becomes `Option T`; a generic method becomes a field
quantified over its type parameter).  Behavioral contracts that the trait
documentation imposes on implementations, but for which the crate ships
no code, are settled against reference definitions modelled from the
spec, marked `Modelled from the spec:` in their doc comments.
-/

namespace CollectionsRs

/-- Embeds the trait `Container<E>` from `src/generic_containers.rs`:
`fn add(element: E);` and `fn len() -> usize;`.  Neither method is
declared with a `self` receiver, so an implementation supplies an
associated function on elements returning nothing and a nullary length
function; no container state occurs in either signature. -/
structure Container (E : Type u) : Type u where
  add : E → Unit
  len : Unit → Nat

/-- Embeds the trait `DynamicContainer<E>: Container<E>` from
`src/generic_containers.rs`: `reserve(&mut self, additional: usize)`,
`shrink_to_fit(&mut self)`, `capacity(&self) -> usize`, over an
implementation state type σ. -/
structure DynamicContainer (σ : Type u) (E : Type v) : Type (max u v) where
  toContainer : Container E
  reserve : σ → Nat → σ
  shrink_to_fit : σ → σ
  capacity : σ → Nat

/-- Embeds the trait `CopyMap<'a, K, V, E = V, R, Rm>: Container<V>`
(`K: Copy + Eq`, `R: Deref<Target = V>`, `Rm: DerefMut<Target = V>`) from
`src/interfaces.rs`.  `K: Eq` is modelled by the `DecidableEq K` binder;
`K: Copy` has no separate Lean counterpart since Lean values duplicate
freely, which is exactly what the bound grants.  The `Deref` bounds become
the read-through functions `derefR`/`derefRm`.  All three lookup methods
take the key `K` directly by value, as in the source. -/
structure CopyMap (σ K V : Type) (E : Type) (R Rm : Type) [DecidableEq K] : Type where
  toContainer : Container V
  derefR : R → V
  derefRm : Rm → V
  get : σ → K → Option R
  get_mut : σ → K → Option Rm
  insert : σ → K → V → Option V × σ

/-- Embeds the trait `Map<'a, K, V, E = V, R, Rm>: Container<V>`
(`K: Eq`) from `src/interfaces.rs`.  Its `get`/`get_mut` are generic
methods `fn get<Q: ?Sized>(&self, key: &Q) where K: Borrow<Q>, Q: Eq`:
the field quantifies over the lookup-compatible view type `Q`, its `Eq`
bound (`DecidableEq Q`) and a borrow witness `K → Q` modelling
`K: Borrow<Q>`.  `insert` takes `K` by value as in the source. -/
structure Map (σ K V : Type) (E : Type) (R Rm : Type) [DecidableEq K] : Type 1 where
  toContainer : Container V
  derefR : R → V
  derefRm : Rm → V
  get : (Q : Type) → [DecidableEq Q] → (K → Q) → σ → Q → Option R
  get_mut : (Q : Type) → [DecidableEq Q] → (K → Q) → σ → Q → Option Rm
  insert : σ → K → V → Option V × σ

/-- Embeds the trait `CopyDictionary<'a, K, V, R, Rm>:
CopyMap<'a, K, V, V, R, Rm> + DynamicContainer<K> + Index<K, Output = V>
+ IndexMut<K, Output = V>` from `src/interfaces.rs`.  The `Index` bound
(`fn index(&self, k: K) -> &V`, which cannot signal absence in its return
type) becomes a total field `index : σ → K → V`; `IndexMut` likewise,
read through to the stored value.  The required method
`remove(&mut self, k: K) -> Option<V>` is a field; the defaulted
`contains` is the separate definition `CopyDictionary.contains` below. -/
structure CopyDictionary (σ K V R Rm : Type) [DecidableEq K] : Type where
  toCopyMap : CopyMap σ K V V R Rm
  toDynamicContainer : DynamicContainer σ K
  index : σ → K → V
  index_mut : σ → K → V
  remove : σ → K → Option V × σ

/-- Embeds the trait `Dictionary<'a, K, V, R, Rm>:
Map<'a, K, V, V, R, Rm> + DynamicContainer<K> + Index<K, Output = V> +
IndexMut<K, Output = V>` from `src/interfaces.rs`, with the required
generic method `remove<Q: ?Sized>(&mut self, k: &Q) -> Option<V> where
K: Borrow<Q>, Q: Eq`. -/
structure Dictionary (σ K V R Rm : Type) [DecidableEq K] : Type 1 where
  toMap : Map σ K V V R Rm
  toDynamicContainer : DynamicContainer σ K
  index : σ → K → V
  index_mut : σ → K → V
  remove : (Q : Type) → [DecidableEq Q] → (K → Q) → σ → Q → Option V × σ

/-- The default method body of `CopyDictionary::contains` from
`src/interfaces.rs`: `match self.get(key) { Some(_) => true,
None => false }`. -/
def CopyDictionary.contains [DecidableEq K] (d : CopyDictionary σ K V R Rm)
    (s : σ) (key : K) : Bool :=
  match d.toCopyMap.get s key with
  | some _ => true
  | none => false

/-- The default method body of `Dictionary::contains<Q>` from
`src/interfaces.rs`: `match self.get(key) { Some(_) => true,
None => false }`, generic over the lookup-compatible view `Q`. -/
def Dictionary.contains [DecidableEq K] (d : Dictionary σ K V R Rm)
    (Q : Type) [DecidableEq Q] (borrow : K → Q) (s : σ) (key : Q) : Bool :=
  match d.toMap.get Q borrow s key with
  | some _ => true
  | none => false

/-- Running a sequence of `Container::add` calls: since `add` takes no
`self` receiver, each call returns `()` and there is no container state
to thread. -/
def Container.runAdds (c : Container E) (ops : List E) : Unit :=
  ops.foldl (fun _ e => c.add e) ()

/-- The value `Container::len` returns when called after a sequence of
`Container::add` calls. -/
def Container.lenAfter (c : Container E) (ops : List E) : Nat :=
  match c.runAdds ops with
  | () => c.len ()

/-- A concrete implementation of the `Container` signature: `add` can
only return `()` (there is no receiver whose state it could change), and
`len`, a nullary function, here reports 0. -/
def natContainer : Container Nat where
  add := fun _ => ()
  len := fun _ => 0

/-- C10: `Container::add` and `Container::len` are declared without any
`self` receiver, so for each implementing type they are associated
functions with no access to a container instance: `len ()` returns the
same value no matter which sequence of `add` calls precedes it, and that
value is the one `len` returns on a fresh call. -/
theorem container_len_independent_of_adds (c : Container E) (ops ops' : List E) :
    c.lenAfter ops = c.lenAfter ops' ∧ c.lenAfter ops = c.len () :=
  ⟨rfl, rfl⟩

/-- C1: code bug.  The spec's contract says `add(element)` moves the
element into the container and increases `len()` by exactly one, but the
declared signatures (`fn add(element: E);`, `fn len() -> usize;`, no
`self`) make that impossible: at the concrete implementation
`natContainer`, after the call `add 5` the value of `len ()` is still 0,
not 1. -/
theorem container_add_cannot_increase_len :
    natContainer.lenAfter [5] = natContainer.len () ∧ natContainer.len () = 0 :=
  ⟨rfl, rfl⟩

/-- C2: for every type implementing `Dictionary` or `CopyDictionary`
with the default `contains` method, and every container state and key,
`contains key` is `true` exactly when `get key` returns a present
(`some`) value. -/
theorem contains_iff_get_isSome :
    (∀ (σ K V R Rm : Type) (_ : DecidableEq K)
       (d : CopyDictionary σ K V R Rm) (s : σ) (key : K),
       d.contains s key = (d.toCopyMap.get s key).isSome) ∧
    (∀ (σ K V R Rm : Type) (_ : DecidableEq K)
       (d : Dictionary σ K V R Rm)
       (Q : Type) (_ : DecidableEq Q) (borrow : K → Q) (s : σ) (key : Q),
       d.contains Q borrow s key = (d.toMap.get Q borrow s key).isSome) := by
  constructor
  · intro σ K V R Rm _ d s key
    unfold CopyDictionary.contains
    cases d.toCopyMap.get s key <;> rfl
  · intro σ K V R Rm _ d Q _ borrow s key
    unfold Dictionary.contains
    cases d.toMap.get Q borrow s key <;> rfl

/-- Specializing a `Map` to the `CopyMap` signature: the lookup view type
`Q` is instantiated with the key type `K` itself through the identity
borrow, so the key is passed by value; every other component is taken
over unchanged. -/
def Map.toCopyMap [DecidableEq K] (m : Map σ K V E R Rm) : CopyMap σ K V E R Rm where
  toContainer := m.toContainer
  derefR := m.derefR
  derefRm := m.derefRm
  get := fun s k => m.get K id s k
  get_mut := fun s k => m.get_mut K id s k
  insert := m.insert

/-- C8: `CopyMap`'s lookup operations take the key `K` directly by value
(visible in the `CopyMap` field types), while `Map`'s `get`/`get_mut`
accept any lookup-compatible view `Q` with a borrow witness `K → Q`; this
key-passing style is the only difference between the two capabilities:
instantiating the view with `K` itself via the identity borrow turns a
`Map` into a `CopyMap` whose container, read-through and `insert`
components are literally the ones of the `Map`, and whose `get`/`get_mut`
are the `Map`'s specialized at `Q := K`. -/
theorem copyMap_differs_from_map_only_in_key_passing
    (σ K V E R Rm : Type) (inst : DecidableEq K) (m : Map σ K V E R Rm) :
    m.toCopyMap.toContainer = m.toContainer ∧
    m.toCopyMap.derefR = m.derefR ∧
    m.toCopyMap.derefRm = m.derefRm ∧
    m.toCopyMap.insert = m.insert ∧
    (∀ (s : σ) (k : K), m.toCopyMap.get s k = m.get K id s k) ∧
    (∀ (s : σ) (k : K), m.toCopyMap.get_mut s k = m.get_mut K id s k) :=
  ⟨rfl, rfl, rfl, rfl, fun _ _ => rfl, fun _ _ => rfl⟩

/-- C9: every type satisfying `Dictionary` (resp. `CopyDictionary`) also
satisfies the lookup capability `Map` (resp. `CopyMap`), the
`DynamicContainer` capability and through it `Container` (and, through
the lookup capability's `Container<V>` supertrait, `add`/`len` over the
contained values as well), subscript access `Index`/`IndexMut`, plus the
derived `contains` (built on `get`) and `remove`. -/
theorem dictionary_composes_capabilities :
    (∀ (σ K V R Rm : Type) (_ : DecidableEq K) (d : Dictionary σ K V R Rm),
       ∃ (m : Map σ K V V R Rm) (dc : DynamicContainer σ K)
         (cK : Container K) (cV : Container V)
         (ix ixm : σ → K → V)
         (rem : (Q : Type) → [DecidableEq Q] → (K → Q) → σ → Q → Option V × σ),
         m = d.toMap ∧ dc = d.toDynamicContainer ∧
         cK = d.toDynamicContainer.toContainer ∧ cV = d.toMap.toContainer ∧
         ix = d.index ∧ ixm = d.index_mut ∧ rem = d.remove ∧
         (∀ (Q : Type) (_ : DecidableEq Q) (borrow : K → Q) (s : σ) (q : Q),
           d.contains Q borrow s q = (m.get Q borrow s q).isSome)) ∧
    (∀ (σ K V R Rm : Type) (_ : DecidableEq K) (d : CopyDictionary σ K V R Rm),
       ∃ (m : CopyMap σ K V V R Rm) (dc : DynamicContainer σ K)
         (cK : Container K) (cV : Container V)
         (ix ixm : σ → K → V) (rem : σ → K → Option V × σ),
         m = d.toCopyMap ∧ dc = d.toDynamicContainer ∧
         cK = d.toDynamicContainer.toContainer ∧ cV = d.toCopyMap.toContainer ∧
         ix = d.index ∧ ixm = d.index_mut ∧ rem = d.remove ∧
         (∀ (s : σ) (k : K), d.contains s k = (m.get s k).isSome)) := by
  constructor
  · intro σ K V R Rm _ d
    refine ⟨d.toMap, d.toDynamicContainer, d.toDynamicContainer.toContainer,
      d.toMap.toContainer, d.index, d.index_mut, d.remove,
      rfl, rfl, rfl, rfl, rfl, rfl, rfl, ?_⟩
    intro Q _ borrow s q
    unfold Dictionary.contains
    cases d.toMap.get Q borrow s q <;> rfl
  · intro σ K V R Rm _ d
    refine ⟨d.toCopyMap, d.toDynamicContainer, d.toDynamicContainer.toContainer,
      d.toCopyMap.toContainer, d.index, d.index_mut, d.remove,
      rfl, rfl, rfl, rfl, rfl, rfl, rfl, ?_⟩
    intro s k
    unfold CopyDictionary.contains
    cases d.toCopyMap.get s k <;> rfl

namespace Model

/-- Modelled from the spec: the crate declares only the lookup
signatures, so the behavioral contract of §4.2 is checked against this
reference dictionary, a list of key-value bindings in insertion order.
`get` "returns a read-capable reference to the value associated with
`key`, or absence if no such key is present": the first binding whose key
equals the query. -/
def get [DecidableEq K] : List (K × V) → K → Option V
  | [], _ => none
  | p :: rest, k => if p.1 = k then some p.2 else get rest k

/-- Modelled from the spec: `get_mut` returns a mutable handle to the
same stored value `get` finds (§3: any `Rm` is read-through equivalent to
a direct reference to the stored value). -/
def get_mut [DecidableEq K] (s : List (K × V)) (k : K) : Option V :=
  get s k

/-- Modelled from the spec: `insert(key, value)` "inserts or overwrites
the mapping for `key`; returns the previous value if the key existed, or
absence if the key was new" (§4.2): the first binding for the key is
overwritten in place, a new key is appended. -/
def insert [DecidableEq K] : List (K × V) → K → V → Option V × List (K × V)
  | [], k, v => (none, [(k, v)])
  | p :: rest, k, v =>
    if p.1 = k then (some p.2, (k, v) :: rest)
    else
      let r := insert rest k v
      (r.1, p :: r.2)

/-- Modelled from the spec: `remove(key)` "detaches and returns the value
for `key` if present ...; returns absence and leaves the container
unchanged if `key` was not present" (§4.3): the first binding for the key
is detached. -/
def remove [DecidableEq K] : List (K × V) → K → Option V × List (K × V)
  | [], _ => (none, [])
  | p :: rest, k =>
    if p.1 = k then (some p.2, rest)
    else
      let r := remove rest k
      (r.1, p :: r.2)

/-- Modelled from the spec: subscript access is "equivalent to `get` but
with a fatal failure (not an absence signal) when the key is missing"
(§4.3, §7); the fatal, unrecoverable abort is modelled as `Except.error`. -/
def index [DecidableEq K] : List (K × V) → K → Except Unit V
  | [], _ => .error ()
  | p :: rest, k => if p.1 = k then .ok p.2 else index rest k

/-- Modelled from the spec: subscript write access, read through to the
value it designates; fatal on a missing key like `index`. -/
def index_mut [DecidableEq K] (s : List (K × V)) (k : K) : Except Unit V :=
  index s k

/-- Modelled from the spec: `len()` returns the current logical element
count (§4.1). -/
def len (s : List (K × V)) : Nat :=
  s.length

/-- The number of bindings a state holds for one key. -/
def countKey [DecidableEq K] : List (K × V) → K → Nat
  | [], _ => 0
  | p :: rest, k => (if p.1 = k then 1 else 0) + countKey rest k

/-- Well-formed dictionary states bind each key at most once ("exactly
one value associated with `key`", §4.2); every state the operations
produce from a well-formed state is again well-formed. -/
def WF (s : List (K × V)) : Prop :=
  (s.map Prod.fst).Nodup

instance [DecidableEq K] (s : List (K × V)) : Decidable (WF s) :=
  inferInstanceAs (Decidable (s.map Prod.fst).Nodup)

theorem get_eq_none_of_not_mem [DecidableEq K] (s : List (K × V)) (k : K)
    (h : k ∉ s.map Prod.fst) : get s k = none := by
  induction s with
  | nil => rfl
  | cons p rest ih =>
    simp only [List.map_cons, List.mem_cons] at h
    push_neg at h
    have hk : ¬(p.1 = k) := fun hk => h.1 hk.symm
    simp only [get, if_neg hk]
    exact ih h.2

theorem get_isSome_of_mem [DecidableEq K] (s : List (K × V)) (k : K)
    (h : k ∈ s.map Prod.fst) : ∃ v, get s k = some v := by
  induction s with
  | nil => simp at h
  | cons p rest ih =>
    by_cases hk : p.1 = k
    · exact ⟨p.2, by simp [get, hk]⟩
    · simp only [List.map_cons, List.mem_cons] at h
      rcases h with h | h
      · exact absurd h.symm hk
      · obtain ⟨v, hv⟩ := ih h
        exact ⟨v, by simp [get, hk, hv]⟩

theorem index_eq_ok_of_get [DecidableEq K] (s : List (K × V)) (k : K) (v : V)
    (h : get s k = some v) : index s k = .ok v := by
  induction s with
  | nil => simp [get] at h
  | cons p rest ih =>
    by_cases hk : p.1 = k
    · simp only [get, if_pos hk, Option.some.injEq] at h
      simp [index, hk, h]
    · simp only [get, if_neg hk] at h
      simp [index, hk, ih h]

theorem index_eq_error_of_get [DecidableEq K] (s : List (K × V)) (k : K)
    (h : get s k = none) : index s k = .error () := by
  induction s with
  | nil => rfl
  | cons p rest ih =>
    by_cases hk : p.1 = k
    · simp [get, hk] at h
    · simp only [get, if_neg hk] at h
      simp [index, hk, ih h]

theorem remove_fst [DecidableEq K] (s : List (K × V)) (k : K) :
    (remove s k).1 = get s k := by
  induction s with
  | nil => rfl
  | cons p rest ih =>
    by_cases hk : p.1 = k
    · simp [remove, get, hk]
    · simp [remove, get, hk, ih]

theorem len_remove_of_get_some [DecidableEq K] (s : List (K × V)) (k : K) (v : V)
    (h : get s k = some v) : (remove s k).2.length + 1 = s.length := by
  induction s with
  | nil => simp [get] at h
  | cons p rest ih =>
    by_cases hk : p.1 = k
    · simp [remove, hk]
    · simp only [get, if_neg hk] at h
      have := ih h
      simp only [remove, if_neg hk, List.length_cons]
      omega

theorem remove_of_get_none [DecidableEq K] (s : List (K × V)) (k : K)
    (h : get s k = none) : remove s k = (none, s) := by
  induction s with
  | nil => rfl
  | cons p rest ih =>
    by_cases hk : p.1 = k
    · simp [get, hk] at h
    · simp only [get, if_neg hk] at h
      simp [remove, hk, ih h]

theorem insert_fst [DecidableEq K] (s : List (K × V)) (k : K) (v : V) :
    (insert s k v).1 = get s k := by
  induction s with
  | nil => rfl
  | cons p rest ih =>
    by_cases hk : p.1 = k
    · simp [insert, get, hk]
    · simp [insert, get, hk, ih]

theorem get_insert_self [DecidableEq K] (s : List (K × V)) (k : K) (v : V) :
    get (insert s k v).2 k = some v := by
  induction s with
  | nil => simp [insert, get]
  | cons p rest ih =>
    by_cases hk : p.1 = k
    · simp [insert, get, hk]
    · simp [insert, get, hk, ih]

theorem mem_keys_insert [DecidableEq K] (s : List (K × V)) (k : K) (v : V) (x : K)
    (h : x ∈ (insert s k v).2.map Prod.fst) : x ∈ s.map Prod.fst ∨ x = k := by
  induction s with
  | nil =>
    simp [insert] at h
    exact Or.inr h
  | cons p rest ih =>
    simp only [List.map_cons, List.mem_cons]
    by_cases hk : p.1 = k
    · simp only [insert, if_pos hk, List.map_cons, List.mem_cons] at h
      rcases h with h | h
      · exact Or.inr h
      · exact Or.inl (Or.inr h)
    · simp only [insert, if_neg hk, List.map_cons, List.mem_cons] at h
      rcases h with h | h
      · exact Or.inl (Or.inl h)
      · rcases ih h with h' | h'
        · exact Or.inl (Or.inr h')
        · exact Or.inr h'

theorem wf_insert [DecidableEq K] (s : List (K × V)) (k : K) (v : V)
    (h : WF s) : WF (insert s k v).2 := by
  induction s with
  | nil => simp [insert, WF]
  | cons p rest ih =>
    simp only [WF, List.map_cons, List.nodup_cons] at h
    by_cases hk : p.1 = k
    · subst hk
      have he : insert (p :: rest) p.1 v = (some p.2, (p.1, v) :: rest) := by
        simp [insert]
      rw [he]
      simp only [WF, List.map_cons, List.nodup_cons]
      exact ⟨h.1, h.2⟩
    · have h2 := ih h.2
      simp only [insert, if_neg hk, WF, List.map_cons, List.nodup_cons]
      refine ⟨?_, h2⟩
      intro hmem
      rcases mem_keys_insert rest k v p.1 hmem with hin | heq
      · exact h.1 hin
      · exact hk heq

theorem countKey_eq_zero_of_not_mem [DecidableEq K] (s : List (K × V)) (k : K)
    (h : k ∉ s.map Prod.fst) : countKey s k = 0 := by
  induction s with
  | nil => rfl
  | cons p rest ih =>
    simp only [List.map_cons, List.mem_cons] at h
    push_neg at h
    have hk : ¬(p.1 = k) := fun e => h.1 e.symm
    simp [countKey, hk, ih h.2]

theorem countKey_le_one_of_wf [DecidableEq K] (s : List (K × V)) (k : K)
    (h : WF s) : countKey s k ≤ 1 := by
  induction s with
  | nil => simp [countKey]
  | cons p rest ih =>
    simp only [WF, List.map_cons, List.nodup_cons] at h
    by_cases hk : p.1 = k
    · have : countKey rest k = 0 :=
        countKey_eq_zero_of_not_mem rest k (by rw [← hk]; exact h.1)
      simp [countKey, hk, this]
    · simp only [countKey, if_neg hk, Nat.zero_add]
      exact ih h.2

theorem countKey_pos_of_get_some [DecidableEq K] (s : List (K × V)) (k : K) (v : V)
    (h : get s k = some v) : 1 ≤ countKey s k := by
  induction s with
  | nil => simp [get] at h
  | cons p rest ih =>
    by_cases hk : p.1 = k
    · simp [countKey, hk]
    · simp only [get, if_neg hk] at h
      simp only [countKey, if_neg hk, Nat.zero_add]
      exact ih h

end Model

/-- C3: for every dictionary state and key of the reference model: on a
present key, subscript access (`index`/`index_mut`) yields exactly the
value that `get`/`get_mut` reference; on a missing key, subscript access
fails fatally (`Except.error`) rather than returning an absence value,
while `get`/`get_mut` return absence (`none`). -/
theorem subscript_agrees_with_get (K V : Type) [DecidableEq K]
    (s : List (K × V)) (k : K) :
    (k ∈ s.map Prod.fst →
      ∃ v, Model.get s k = some v ∧ Model.get_mut s k = some v ∧
        Model.index s k = Except.ok v ∧ Model.index_mut s k = Except.ok v) ∧
    (k ∉ s.map Prod.fst →
      Model.get s k = none ∧ Model.get_mut s k = none ∧
        Model.index s k = Except.error () ∧ Model.index_mut s k = Except.error ()) := by
  constructor
  · intro hmem
    obtain ⟨v, hv⟩ := Model.get_isSome_of_mem s k hmem
    exact ⟨v, hv, hv, Model.index_eq_ok_of_get s k v hv,
      Model.index_eq_ok_of_get s k v hv⟩
  · intro hmem
    have hg := Model.get_eq_none_of_not_mem s k hmem
    exact ⟨hg, hg, Model.index_eq_error_of_get s k hg,
      Model.index_eq_error_of_get s k hg⟩

theorem subscript_agrees_with_get_witness :
    (∃ v, Model.get [((1 : Nat), (10 : Nat))] 1 = some v ∧
      Model.get_mut [((1 : Nat), (10 : Nat))] 1 = some v ∧
      Model.index [((1 : Nat), (10 : Nat))] 1 = Except.ok v ∧
      Model.index_mut [((1 : Nat), (10 : Nat))] 1 = Except.ok v) ∧
    (Model.get [((1 : Nat), (10 : Nat))] 2 = none ∧
      Model.get_mut [((1 : Nat), (10 : Nat))] 2 = none ∧
      Model.index [((1 : Nat), (10 : Nat))] 2 = Except.error () ∧
      Model.index_mut [((1 : Nat), (10 : Nat))] 2 = Except.error ()) :=
  ⟨(subscript_agrees_with_get Nat Nat [(1, 10)] 1).1 (by decide),
   (subscript_agrees_with_get Nat Nat [(1, 10)] 2).2 (by decide)⟩

/-- C4: for every dictionary state and key of the reference model:
`remove` on a present key returns the stored value and decreases `len`
by exactly one; `remove` on an absent key returns absence and leaves the
entire state unchanged. -/
theorem remove_contract (K V : Type) [DecidableEq K]
    (s : List (K × V)) (k : K) :
    (∀ v, Model.get s k = some v →
      (Model.remove s k).1 = some v ∧
      Model.len (Model.remove s k).2 + 1 = Model.len s) ∧
    (Model.get s k = none → Model.remove s k = (none, s)) := by
  constructor
  · intro v hv
    refine ⟨?_, ?_⟩
    · rw [Model.remove_fst]; exact hv
    · exact Model.len_remove_of_get_some s k v hv
  · intro hnone
    exact Model.remove_of_get_none s k hnone

theorem remove_contract_witness :
    ((Model.remove [((1 : Nat), (10 : Nat)), (2, 20)] 1).1 = some 10 ∧
      Model.len (Model.remove [((1 : Nat), (10 : Nat)), (2, 20)] 1).2 + 1 =
        Model.len [((1 : Nat), (10 : Nat)), (2, 20)]) ∧
    Model.remove [((1 : Nat), (10 : Nat)), (2, 20)] 3 = (none, [(1, 10), (2, 20)]) :=
  ⟨(remove_contract Nat Nat [(1, 10), (2, 20)] 1).1 10 (by decide),
   (remove_contract Nat Nat [(1, 10), (2, 20)] 3).2 (by decide)⟩

/-- C5: for every well-formed state of the reference model, every key and
values v1, v2: `insert k v1` then `insert k v2` makes the second `insert`
return `some v1`, a subsequent `get k` yields `v2`, and after the inserts
exactly one value is associated with `k`. -/
theorem insert_overwrite (K V : Type) [DecidableEq K]
    (s : List (K × V)) (k : K) (v1 v2 : V) (hwf : Model.WF s) :
    (Model.insert (Model.insert s k v1).2 k v2).1 = some v1 ∧
    Model.get (Model.insert (Model.insert s k v1).2 k v2).2 k = some v2 ∧
    Model.countKey (Model.insert (Model.insert s k v1).2 k v2).2 k = 1 := by
  have hwf1 : Model.WF (Model.insert s k v1).2 := Model.wf_insert s k v1 hwf
  have hwf2 : Model.WF (Model.insert (Model.insert s k v1).2 k v2).2 :=
    Model.wf_insert _ k v2 hwf1
  have hget2 : Model.get (Model.insert (Model.insert s k v1).2 k v2).2 k = some v2 :=
    Model.get_insert_self _ k v2
  refine ⟨?_, hget2, ?_⟩
  · rw [Model.insert_fst]
    exact Model.get_insert_self s k v1
  · have hle := Model.countKey_le_one_of_wf _ k hwf2
    have hpos := Model.countKey_pos_of_get_some _ k v2 hget2
    omega

theorem insert_overwrite_witness :
    (Model.insert (Model.insert [((2 : Nat), (20 : Nat))] 1 10).2 1 11).1 = some 10 ∧
    Model.get (Model.insert (Model.insert [((2 : Nat), (20 : Nat))] 1 10).2 1 11).2 1 = some 11 ∧
    Model.countKey (Model.insert (Model.insert [((2 : Nat), (20 : Nat))] 1 10).2 1 11).2 1 = 1 :=
  insert_overwrite Nat Nat [(2, 20)] 1 10 11 (by decide)

/-- C6: for every state of the reference model and every key not
previously present, `insert key value` followed by `get key` yields a
present value equal to the inserted one. -/
theorem insert_get_roundtrip (K V : Type) [DecidableEq K]
    (s : List (K × V)) (k : K) (v : V) (hnew : Model.get s k = none) :
    Model.get (Model.insert s k v).2 k = some v := by
  have _ := hnew
  exact Model.get_insert_self s k v

theorem insert_get_roundtrip_witness :
    Model.get (Model.insert [((2 : Nat), (20 : Nat))] 1 10).2 1 = some 10 :=
  insert_get_roundtrip Nat Nat [(2, 20)] 1 10 (by decide)

/-- Modelled from the spec: the crate declares only the
`DynamicContainer` signatures, so the capacity contract of §4.1 and §3 is
checked against this reference state of a logical length and an
allocated capacity. -/
structure DynModel where
  len : Nat
  cap : Nat

/-- Modelled from the spec: `reserve(additional)` guarantees room for
`additional` more elements and "never reduces existing capacity" (§4.1). -/
def DynModel.reserve (s : DynModel) (additional : Nat) : DynModel :=
  ⟨s.len, max s.cap (s.len + additional)⟩

/-- Modelled from the spec: `shrink_to_fit` "releases unused storage down
to (or near) current length" (§4.1). -/
def DynModel.shrink_to_fit (s : DynModel) : DynModel :=
  ⟨s.len, s.len⟩

/-- Modelled from the spec: `capacity()` "is purely observational"
(§4.1). -/
def DynModel.capacity (s : DynModel) : Nat :=
  s.cap

/-- Modelled from the spec: an insertion grows the allocation only when
the logical length would exceed it (§3: capacity ≥ length always). -/
def DynModel.add (s : DynModel) : DynModel :=
  ⟨s.len + 1, max s.cap (s.len + 1)⟩

/-- Modelled from the spec: a removal never touches the allocation
(capacity decreases only via `shrink_to_fit`, §8). -/
def DynModel.remove (s : DynModel) : DynModel :=
  ⟨s.len - 1, s.cap⟩

/-- `j` consecutive insertions. -/
def DynModel.addN : DynModel → Nat → DynModel
  | s, 0 => s
  | s, j + 1 => (DynModel.addN s j).add

theorem DynModel.addN_spec (s : DynModel) (n : Nat) :
    ∀ j, j ≤ n →
      ((s.reserve n).addN j).capacity = (s.reserve n).capacity ∧
      ((s.reserve n).addN j).len = s.len + j := by
  intro j
  induction j with
  | zero => intro _; exact ⟨rfl, rfl⟩
  | succ j ih =>
    intro hle
    have hj := ih (Nat.le_of_succ_le hle)
    constructor
    · show ((s.reserve n).addN j).add.capacity = (s.reserve n).capacity
      simp only [DynModel.add, DynModel.capacity] at hj ⊢
      rw [hj.1, hj.2]
      simp only [DynModel.reserve]
      omega
    · show ((s.reserve n).addN j).add.len = s.len + (j + 1)
      simp only [DynModel.add] at hj ⊢
      omega

/-- C7: for the reference `DynamicContainer` model: `reserve n` never
decreases `capacity` and leaves `len` unchanged; afterwards `capacity` is
at least `len + n`, and any `j ≤ n` further insertions proceed without
internal growth (`capacity` stays exactly what `reserve` established);
`capacity` also never decreases through an insertion or a removal, i.e.
through anything but `shrink_to_fit`. -/
theorem reserve_capacity_contract (s : DynModel) (n j : Nat) (hj : j ≤ n) :
    s.capacity ≤ (s.reserve n).capacity ∧
    (s.reserve n).len = s.len ∧
    s.len + n ≤ (s.reserve n).capacity ∧
    ((s.reserve n).addN j).capacity = (s.reserve n).capacity ∧
    s.capacity ≤ s.add.capacity ∧
    s.capacity ≤ s.remove.capacity := by
  refine ⟨?_, rfl, ?_, (DynModel.addN_spec s n j hj).1, ?_, ?_⟩
  · simp [DynModel.reserve, DynModel.capacity]
  · simp [DynModel.reserve, DynModel.capacity]
  · simp [DynModel.add, DynModel.capacity]
  · simp [DynModel.remove, DynModel.capacity]

theorem reserve_capacity_contract_witness :
    (DynModel.mk 2 3).capacity ≤ ((DynModel.mk 2 3).reserve 4).capacity ∧
    ((DynModel.mk 2 3).reserve 4).len = (DynModel.mk 2 3).len ∧
    (DynModel.mk 2 3).len + 4 ≤ ((DynModel.mk 2 3).reserve 4).capacity ∧
    (((DynModel.mk 2 3).reserve 4).addN 2).capacity = ((DynModel.mk 2 3).reserve 4).capacity ∧
    (DynModel.mk 2 3).capacity ≤ (DynModel.mk 2 3).add.capacity ∧
    (DynModel.mk 2 3).capacity ≤ (DynModel.mk 2 3).remove.capacity :=
  reserve_capacity_contract ⟨2, 3⟩ 4 2 (by decide)

end CollectionsRs
